import Mathlib

/-!
# Verification of the TestOut grader core pipeline (`src/app.py`)

This file is a shallow embedding of the grading pipeline implemented in
`src/app.py`:

* `headerMatch` models `HEADER_RE.match` (line 12),
* `classify` / `registry` model `parse_columns` (lines 14–41),
* `pct_to_float` models `pct_to_float` (lines 43–62),
* `pipeline` models the core of the `index` POST handler (lines 64–163),
  from the point where the CSV has been read into a table of raw text
  cells up to the construction of the output table handed to the
  template renderer.

Modelling conventions:

* A cell of the input table is an `Option String`; `none` models a pandas
  `NaN` (blank cell).  Since the CSV is read with `dtype=str`, every
  non-missing cell is a string.
* Numeric values are represented by `PVal`: an exact finite rational
  (`Frac`, an unnormalized numerator/denominator pair chosen so that
  every operation reduces inside the Lean kernel), a positive or
  negative infinity, or NaN — mirroring the IEEE values `float()` can
  produce, with finite arithmetic carried out exactly.  `Frac.toRat`
  maps the finite representation to `ℚ` and the `toRat_*` lemmas below
  show the operations implement genuine rational arithmetic.  Python
  `float()` itself is modelled including its `inf`/`infinity`/`nan`
  literal forms and CPython's digit-group underscore validation.
* Python exceptions are modelled by `Option`: `pipeline` returns `none`
  exactly when the handler would raise (empty column list, or
  `astype(float)` failing on a raw string).
* String handling is modelled over ASCII (`\w`, `str.lower`, `str.strip`
  on their ASCII meaning), which covers the header and cell language of
  the application.
-/

namespace App

/-- Exact rational number as an unnormalized fraction.  All operations used
by the pipeline keep the denominator positive. -/
structure Frac where
  num : Int
  den : Nat
deriving DecidableEq, Repr

/-- The rational number denoted by a `Frac`. -/
def Frac.toRat (a : Frac) : ℚ := (a.num : ℚ) / (a.den : ℚ)

/-- Addition of fractions (no normalization). -/
def Frac.add (a b : Frac) : Frac :=
  ⟨a.num * (b.den : Int) + b.num * (a.den : Int), a.den * b.den⟩

/-- Division of a fraction by a natural number. -/
def Frac.divNat (a : Frac) (n : Nat) : Frac := ⟨a.num, a.den * n⟩

/-- Negation of a fraction. -/
def Frac.neg (a : Frac) : Frac := ⟨-a.num, a.den⟩

/-- `10 ^ k` as a natural number. -/
def pow10 (k : Nat) : Nat := 10 ^ k

/-- Multiplication by `10 ^ e` for an integer `e`. -/
def Frac.mulPow10 (a : Frac) (e : Int) : Frac :=
  match e with
  | .ofNat k => ⟨a.num * (pow10 k : Int), a.den⟩
  | .negSucc k => ⟨a.num, a.den * pow10 (k + 1)⟩

/-- Floor of a fraction (exact for positive denominators, via floor
division of integers). -/
def Frac.floor (a : Frac) : Int := a.num.fdiv (a.den : Int)

/-- Sum of a list of fractions. -/
def fracSum (vs : List Frac) : Frac := vs.foldr Frac.add ⟨0, 1⟩

/-- Arithmetic mean of a list of fractions: sum divided by length.  Models
`pd.Series(vals).dropna().mean()` applied to the present values. -/
def fracMean (vs : List Frac) : Frac := (fracSum vs).divNat vs.length

/-- A Python float value as the pipeline sees it: an exact finite
rational, a signed infinity, or NaN (the missing marker — exactly the
values on which `pd.isna` is true). -/
inductive PVal where
  | fin : Frac → PVal
  | pinf : PVal
  | ninf : PVal
  | nan : PVal
deriving DecidableEq, Repr

/-- IEEE addition on the value domain (exact in the finite case): NaN is
absorbing, opposite infinities give NaN, an infinity otherwise wins. -/
def pvAdd : PVal → PVal → PVal
  | .nan, _ => .nan
  | _, .nan => .nan
  | .pinf, .ninf => .nan
  | .ninf, .pinf => .nan
  | .pinf, _ => .pinf
  | _, .pinf => .pinf
  | .ninf, _ => .ninf
  | _, .ninf => .ninf
  | .fin a, .fin b => .fin (a.add b)

/-- Sum of a list of values (the sum underlying `Series.mean`); the
result is order-independent in the cases above. -/
def pvSum (vs : List PVal) : PVal := vs.foldr pvAdd (.fin ⟨0, 1⟩)

/-- `Series.mean` on NaN-free values: sum over count; infinities
propagate, and a sum of opposite infinities is NaN. -/
def pvMean (vs : List PVal) : PVal :=
  match pvSum vs with
  | .fin a => .fin (a.divNat vs.length)
  | .pinf => .pinf
  | .ninf => .ninf
  | .nan => .nan

/-! ## Characters and strings -/

/-- Whitespace characters removed by Python `str.strip` (ASCII model). -/
def isWs (c : Char) : Bool :=
  c = ' ' || c = '\t' || c = '\n' || c = '\x0d' || c = '\x0b' || c = '\x0c'

/-- `str.strip` on a character list. -/
def stripL (l : List Char) : List Char :=
  ((l.dropWhile isWs).reverse.dropWhile isWs).reverse

/-- `str.strip`. -/
def stripStr (s : String) : String := ⟨stripL s.data⟩

/-- `str.lower` (ASCII model). -/
def toLowerStr (s : String) : String := ⟨s.data.map Char.toLower⟩

/-- `col.strip().lower().startswith('student')` (lines 24 and 79; on the
stripped headers of line 75 the two variants in the source coincide). -/
def isStudentHeader (c : String) : Bool :=
  "student".data.isPrefixOf ((stripL c.data).map Char.toLower)

/-- A regex `\w` word character (ASCII model). -/
def isWordChar (c : Char) : Bool := c.isAlphanum || c = '_'

/-- A character of the `[\w\.]` class of `HEADER_RE`. -/
def isCodeChar (c : Char) : Bool := isWordChar c || c = '.'

/-- Model of `HEADER_RE.match` (line 12):
`^\s*(?P<type>\w+)\s*-\s*(?P<code>[\w\.]+)\s*(?P<rest>.*)$`.
Returns the `type` and `code` groups on a match.  The character classes
`\w`, `\s`, `-` and `[\w\.]` are pairwise compatible with greedy maximal
munch, and the trailing `\s*(?P<rest>.*)$` accepts any remainder, so the
regex is equivalent to this scanner. -/
def headerMatch (c : String) : Option (String × String) :=
  let l := c.data.dropWhile isWs
  let ty := l.takeWhile isWordChar
  if ty = [] then none
  else
    match (l.dropWhile isWordChar).dropWhile isWs with
    | '-' :: l2 =>
      let l3 := l2.dropWhile isWs
      let cd := l3.takeWhile isCodeChar
      if cd = [] then none else some (⟨ty⟩, ⟨cd⟩)
    | _ => none

/-- Classification of one column header, i.e. the value stored in
`col_map` by `parse_columns` (lines 23–40). -/
inductive ColClass where
  | student
  | graded : String → String → ColClass
  | unclassified
deriving DecidableEq, Repr

/-- `code.split('.')[0]`: the prefix of `code` before its first dot. -/
def firstTok (s : String) : String := ⟨s.data.takeWhile (fun c => c != '.')⟩

/-- One iteration of the loop of `parse_columns` (lines 23–40): student
check first, then the regex match, else unclassified. -/
def classify (c : String) : ColClass :=
  if isStudentHeader c then .student
  else
    match headerMatch c with
    | some (t, code) => .graded (toLowerStr (stripStr t)) (firstTok (stripStr code))
    | none => .unclassified

/-- The `modules_set` update for one column (lines 36–37). -/
def registryStep (acc : List String) (c : String) : List String :=
  match classify c with
  | .graded _ m => if m ∈ acc then acc else acc ++ [m]
  | _ => acc

/-- `modules_set`: modules in first-seen column order (lines 22–37). -/
def registry (hs : List String) : List String := hs.foldl registryStep []

/-- The two grading kinds. -/
inductive Kind where
  | assessment
  | lab
deriving DecidableEq, Repr

/-- Substring test on character lists (`needle` occurs inside `hay`). -/
def containsAux : List Char → List Char → Bool
  | [], n => n.isPrefixOf ([] : List Char)
  | h :: t, n => n.isPrefixOf (h :: t) || containsAux t n

/-- Python's `needle in hay` substring test. -/
def strContains (hay needle : String) : Bool := containsAux hay.data needle.data

/-- Python's `s.startswith(p)`. -/
def pyStartsWith (s p : String) : Bool := p.data.isPrefixOf s.data

/-- Kind dispatch of lines 110–117: `t = typ.lower()`; assessment if
`'assess' in t or t.startswith('assessment')`, else lab if
`'lab' in t or t.startswith('lab')`, else assessment by default. -/
def kindOf (typ : String) : Kind :=
  let t := toLowerStr typ
  if strContains t "assess" || pyStartsWith t "assessment" then .assessment
  else if strContains t "lab" || pyStartsWith t "lab" then .lab
  else .assessment

/-- The columns collected into `module_cols[m][k]` (lines 100–117): the
classified grading columns of module `m` and kind `k`, in original column
order. -/
def colsOfKind (hs : List String) (m : String) (k : Kind) : List String :=
  hs.filter (fun c =>
    match classify c with
    | .graded t m2 => m2 == m && decide (kindOf t = k)
    | _ => false)

/-! ## The value normalizer `pct_to_float` (lines 43–62) -/

/-- Numeric value of a list of decimal digits. -/
def digitsToNat (l : List Char) : Nat := l.foldl (fun a c => 10 * a + (c.toNat - 48)) 0

/-- Split an optional leading `+`/`-` sign: `(negative?, rest)`. -/
def splitSign : List Char → Bool × List Char
  | '+' :: r => (false, r)
  | '-' :: r => (true, r)
  | l => (false, l)

/-- Mantissa of a Python float literal: `digits [. digits]` with at least
one digit present; returns the value and the unconsumed remainder. -/
def parseMantissa (l : List Char) : Option (Frac × List Char) :=
  let d1 := l.takeWhile Char.isDigit
  let r1 := l.dropWhile Char.isDigit
  match r1 with
  | '.' :: r2 =>
    let d2 := r2.takeWhile Char.isDigit
    let r3 := r2.dropWhile Char.isDigit
    if d1 = [] ∧ d2 = [] then none
    else
      some (⟨(digitsToNat d1 : Int) * (pow10 d2.length : Int) + (digitsToNat d2 : Int),
             pow10 d2.length⟩, r3)
  | _ => if d1 = [] then none else some (⟨(digitsToNat d1 : Int), 1⟩, r1)

/-- Exponent part after `e`/`E`: optional sign then digits, consuming the
whole remainder. -/
def parseExpDigits (l : List Char) : Option Int :=
  let p := splitSign l
  let d := p.2.takeWhile Char.isDigit
  if d = [] then none
  else if p.2.dropWhile Char.isDigit = [] then
    some ((if p.1 then -1 else 1) * (digitsToNat d : Int))
  else none

/-- The text allowed after the mantissa: nothing (exponent 0), or an
`e`/`E` exponent part; `none` on trailing junk. -/
def parseAfterMantissa (rest : List Char) : Option Int :=
  match rest with
  | [] => some 0
  | e :: r => if e = 'e' ∨ e = 'E' then parseExpDigits r else none

/-- Core of Python `float(s)` on whitespace-stripped, underscore-cleaned
text: optional sign, then a case-insensitive `inf`/`infinity`/`nan`
literal or a decimal mantissa with optional exponent, nothing else. -/
def parsePyCore (l : List Char) : Option PVal :=
  let p := splitSign l
  let low := p.2.map Char.toLower
  if low = "inf".data ∨ low = "infinity".data then
    some (if p.1 then PVal.ninf else PVal.pinf)
  else if low = "nan".data then some PVal.nan
  else
    match parseMantissa p.2 with
    | none => none
    | some (m, rest) =>
      let signed := if p.1 then m.neg else m
      match parseAfterMantissa rest with
      | some ex => some (PVal.fin (signed.mulPow10 ex))
      | none => none

/-- CPython's underscore handling for numeric text: every `_` must be
immediately surrounded by digits; valid underscores are removed before
parsing, a misplaced one fails the parse (`none`). -/
def stripUAux : Option Char → List Char → Option (List Char)
  | _, [] => some []
  | prev, c :: rest =>
    if c = '_' then
      match prev, rest with
      | some p, n :: _ =>
        if p.isDigit && n.isDigit then stripUAux (some '_') rest else none
      | _, _ => none
    else
      (stripUAux (some c) rest).map (fun t => c :: t)

def stripUnders (l : List Char) : Option (List Char) := stripUAux none l

/-- Python `float` on raw character text: strip surrounding whitespace,
validate and remove digit-group underscores, then parse; `none` models
`ValueError`. -/
def pyFloatL (l : List Char) : Option PVal :=
  match stripUnders (stripL l) with
  | none => none
  | some l2 => parsePyCore l2

/-- Python `float(s)`. -/
def parsePyFloat (s : String) : Option PVal := pyFloatL s.data

/-- A match of the fallback regex `[-+]?\d*\.?\d+` (line 55) anchored at
the start of `l`; returns the value of the matched text.  Backtracking of
the greedy quantifiers reduces to: take the digits, then take `.digits`
only when at least one digit follows the dot. -/
def numCoreAt (l2 : List Char) : Option Frac :=
  let d1 := l2.takeWhile Char.isDigit
  let r1 := l2.dropWhile Char.isDigit
  match r1 with
  | '.' :: r2 =>
    let d2 := r2.takeWhile Char.isDigit
    if d2 = [] then (if d1 = [] then none else some ⟨(digitsToNat d1 : Int), 1⟩)
    else some ⟨(digitsToNat d1 : Int) * (pow10 d2.length : Int) + (digitsToNat d2 : Int),
               pow10 d2.length⟩
  | _ => if d1 = [] then none else some ⟨(digitsToNat d1 : Int), 1⟩

/-- Sign application around `numCoreAt`, completing the `[-+]?\d*\.?\d+`
match. -/
def numMatchAt (l : List Char) : Option Frac :=
  let p := splitSign l
  match numCoreAt p.2 with
  | none => none
  | some v => some (if p.1 then v.neg else v)

/-- Value of the first (leftmost) match of `[-+]?\d*\.?\d+` in `l`, i.e.
`re.findall(...)[0]` of line 55. -/
def firstNumAux : List Char → Option Frac
  | [] => none
  | c :: r =>
    match numMatchAt (c :: r) with
    | some q => some q
    | none => firstNumAux r

/-- `s.replace('%','')`. -/
def removePct (l : List Char) : List Char := l.filter (fun c => c != '%')

/-- The value normalizer `pct_to_float` (lines 43–62) on a cell read
with `dtype=str`; `PVal.nan` models `NaN` (missing).  Strip, drop `'%'`,
direct `float` parse (which can yield a finite value, an infinity, or
NaN), else the first embedded number, else missing; it never fails. -/
def pct_to_float (v : Option String) : PVal :=
  match v with
  | none => PVal.nan
  | some val =>
    let s := removePct (stripL val.data)
    if s = [] then PVal.nan
    else
      match pyFloatL s with
      | some q => q
      | none =>
        match firstNumAux s with
        | some q => PVal.fin q
        | none => PVal.nan

/-- The cleaned text of a cell (stripped, `%` removed, underscores
validated) reads as an optionally signed, case-insensitive infinity
literal — the digit-free form Python `float` accepts as a present
value. -/
def isInfLit (s : String) : Bool :=
  match stripUnders (stripL (removePct (stripL s.data))) with
  | none => false
  | some l =>
    (splitSign l).2.map Char.toLower = "inf".data ||
    (splitSign l).2.map Char.toLower = "infinity".data

/-! ## Formatting -/

/-- Round to the nearest integer, ties to even — the rounding of Python's
fixed-point float formatting, on an exact fraction with positive
denominator. -/
def roundHalfEven (a : Frac) : Int :=
  let f := a.floor
  let r : Int := a.num - f * (a.den : Int)
  if 2 * r < (a.den : Int) then f
  else if (a.den : Int) < 2 * r then f + 1
  else if f % 2 = 0 then f else f + 1

/-- Python `f"{x:.2f}"` on an exact fraction with positive denominator. -/
def fmt2 (a : Frac) : String :=
  let n := roundHalfEven ⟨a.num * 100, a.den⟩
  let m := n.natAbs
  (if n < 0 ∨ (n = 0 ∧ a.num < 0) then "-" else "") ++ toString (m / 100) ++ "." ++
    (if m % 100 < 10 then "0" else "") ++ toString (m % 100)

/-- Lines 128–141 for one module and kind: the mean over the present
values rendered with a `%` suffix when `pd.notna` holds of it, else the
empty string (no columns of the kind, all values missing, or a NaN mean
from opposite infinities).  CPython's `:.2f` formats infinities as
`inf`/`-inf`. -/
def renderMean (vs : List PVal) : String :=
  if vs = [] then ""
  else
    match pvMean vs with
    | .fin a => fmt2 a ++ "%"
    | .pinf => "inf%"
    | .ninf => "-inf%"
    | .nan => ""

/-! ## The pipeline -/

/-- The input table: the dataframe produced by
`pd.read_csv(stream, dtype=str)`.  A `none` cell is a `NaN`. -/
structure Table where
  headers : List String
  rows : List (List (Option String))
deriving DecidableEq, Repr

/-- The rendered output table (column list and rows, as handed to
`results.html`). -/
structure RTable where
  columns : List String
  rows : List (List (Option String))
deriving DecidableEq, Repr

/-- Label lookup `row[c]` on a row of the dataframe. -/
def cellOf (hs : List String) (row : List (Option String)) (c : String) : Option String :=
  (List.lookup c (hs.zip row)).join

/-- `t.headers` after `df.columns = [c.strip() for c in df.columns]`
(line 75). -/
def strippedHeaders (t : Table) : List String := t.headers.map stripStr

/-- Choice of the student-identity column (lines 77–84): first header
starting with `student` (case-insensitive), else the first column;
`none` only when there are no columns at all. -/
def studentColOf (hs : List String) : Option String :=
  match hs.find? isStudentHeader with
  | some c => some c
  | none => hs.head?

/-- `astype(float)` on one cell of `row[cols]` (lines 129/135).  Cells of
non-student columns were already converted through `pct_to_float`
(lines 92–95); a cell of the student column is still raw, and converting
a raw string goes through Python `float` and raises `ValueError` (outer
`none`) when it is not parseable. -/
def astypeCell (scol c : String) (cell : Option String) : Option PVal :=
  if c = scol then
    match cell with
    | none => some PVal.nan
    | some s => parsePyFloat s
  else some (pct_to_float cell)

/-- Effectful map over a list: `none` as soon as `f` fails. -/
def optMap {α β : Type} (f : α → Option β) : List α → Option (List β)
  | [] => some []
  | a :: l =>
    match f a, optMap f l with
    | some b, some bs => some (b :: bs)
    | _, _ => none

/-- The present values of module `m`, kind `k` in one row as the code
computes them: `astype(float)` over the kind's columns, then `dropna`. -/
def kindVals (hs : List String) (scol : String) (row : List (Option String))
    (m : String) (k : Kind) : Option (List PVal) :=
  (optMap (fun c => astypeCell scol c (cellOf hs row c)) (colsOfKind hs m k)).map
    (fun ws => ws.filter (fun v => decide (v ≠ PVal.nan)))

/-- One output row (lines 121–142): the raw student cell, then the
formatted assessment mean and lab mean of each module.  (The dictionary
`out_row` is keyed by the labels of `tableColumns`, which are pairwise
distinct, so the row is given directly in final column order.) -/
def outRow (hs : List String) (scol : String) (row : List (Option String)) :
    Option (List (Option String)) :=
  match optMap (fun m => (kindVals hs scol row m .assessment).map
          (fun vs => some (renderMean vs))) (registry hs),
        optMap (fun m => (kindVals hs scol row m .lab).map
          (fun vs => some (renderMean vs))) (registry hs) with
  | some aCells, some lCells => some (cellOf hs row scol :: (aCells ++ lCells))
  | _, _ => none

/-- `'Module {m} Assignments'`. -/
def assignLabel (m : String) : String := "Module " ++ m ++ " Assignments"

/-- `'Module {m} Labs'`. -/
def labLabel (m : String) : String := "Module " ++ m ++ " Labs"

/-- `table_columns` (lines 148–156): student first, then all assignment
labels in registry order, then all lab labels in registry order. -/
def tableColumns (hs : List String) : List String :=
  "Student" :: ((registry hs).map assignLabel ++ (registry hs).map labLabel)

/-- The core pipeline of the `index` POST handler, from the parsed
dataframe to the rendered table.  `none` models an uncaught exception:
an empty column list (line 84 would raise `IndexError`), or
`astype(float)` failing on a raw cell of the fallback student column
(lines 129/135 would raise `ValueError`). -/
def pipeline (t : Table) : Option RTable :=
  let hs := strippedHeaders t
  match studentColOf hs with
  | none => none
  | some scol =>
    match optMap (outRow hs scol) t.rows with
    | none => none
    | some rs => some ⟨tableColumns hs, rs⟩

/-- The present normalized values of module `m`, kind `k` in one raw row,
as the specification describes them: the non-missing results of the value
normalizer over the module's columns of that kind, in column order. -/
def presentVals (hs : List String) (row : List (Option String)) (m : String) (k : Kind) :
    List PVal :=
  ((colsOfKind hs m k).map (fun c => pct_to_float (cellOf hs row c))).filter
    (fun v => decide (v ≠ PVal.nan))


/-! ## General lemmas about the embedding -/

theorem optMap_length {α β : Type} (f : α → Option β) :
    ∀ {l : List α} {bs : List β}, optMap f l = some bs → bs.length = l.length := by
  intro l
  induction l with
  | nil => intro bs h; simp [optMap] at h; simp [h.symm]
  | cons a t ih =>
    intro bs h
    simp only [optMap] at h
    cases hfa : f a with
    | none => rw [hfa] at h; simp at h
    | some b =>
      rw [hfa] at h
      cases hrec : optMap f t with
      | none => rw [hrec] at h; simp at h
      | some bs2 =>
        rw [hrec] at h
        simp at h
        subst h
        simp [ih hrec]

theorem optMap_getElem {α β : Type} (f : α → Option β) :
    ∀ {l : List α} {bs : List β}, optMap f l = some bs →
      ∀ {i : Nat} {a : α}, l[i]? = some a → ∃ b, f a = some b ∧ bs[i]? = some b := by
  intro l
  induction l with
  | nil => intro bs _ i a ha; simp at ha
  | cons x t ih =>
    intro bs h i a ha
    simp only [optMap] at h
    cases hfa : f x with
    | none => rw [hfa] at h; simp at h
    | some b =>
      rw [hfa] at h
      cases hrec : optMap f t with
      | none => rw [hrec] at h; simp at h
      | some bs2 =>
        rw [hrec] at h
        simp at h
        subst h
        cases i with
        | zero => simp at ha; subst ha; exact ⟨b, hfa, by simp⟩
        | succ n =>
          simp at ha
          obtain ⟨b2, hb2, hget⟩ := ih hrec ha
          exact ⟨b2, hb2, by simpa using hget⟩

theorem optMap_eq_map {α β : Type} (f : α → Option β) (g : α → β) :
    ∀ {l : List α} {bs : List β}, optMap f l = some bs →
      (∀ a, a ∈ l → ∀ b, f a = some b → b = g a) → bs = l.map g := by
  intro l
  induction l with
  | nil => intro bs h _; simp [optMap] at h; simp [h.symm]
  | cons x t ih =>
    intro bs h hg
    simp only [optMap] at h
    cases hfa : f x with
    | none => rw [hfa] at h; simp at h
    | some b =>
      rw [hfa] at h
      cases hrec : optMap f t with
      | none => rw [hrec] at h; simp at h
      | some bs2 =>
        rw [hrec] at h
        simp at h
        subst h
        have h1 : b = g x := hg x (by simp) b hfa
        have h2 : bs2 = t.map g := ih hrec (fun a ha => hg a (by simp [ha]))
        simp [h1, h2]

/-! ## Claim theorems -/

/-- C2: end-to-end example.  The input table with columns `Student`,
`Assessment - 1.1.6 Topologies`, `Lab - 1.2.7 Build` and rows
`(Alice, 80%, 90%)`, `(Bob, <blank>, 100)` produces output columns
`Student`, `Module 1 Assignments`, `Module 1 Labs` with row 1
`(Alice, 80.00%, 90.00%)` and row 2 `(Bob, <empty>, 100.00%)`. -/
theorem end_to_end_example :
    pipeline ⟨["Student", "Assessment - 1.1.6 Topologies", "Lab - 1.2.7 Build"],
      [[some "Alice", some "80%", some "90%"], [some "Bob", some "", some "100"]]⟩ =
    some ⟨["Student", "Module 1 Assignments", "Module 1 Labs"],
      [[some "Alice", some "80.00%", some "90.00%"],
       [some "Bob", some "", some "100.00%"]]⟩ := by decide

/-- C7: the pipeline does NOT complete on every input table.  On a table
with no column starting with `student`, the first column becomes the
student-identity fallback; if that column itself matches the grading
header pattern it is aggregated as well, while its cells are left
un-normalized (lines 92–94 skip it), and `astype(float)` on its raw cell
`'80%'` raises `ValueError` (modelled by the pipeline returning `none`).
This contradicts the claim that no input causes a fatal error. -/
theorem fallback_student_column_crash :
    pipeline ⟨["Assessment - 1.1.6 Topologies"], [[some "80%"]]⟩ = none := by decide

/-- C8: the pipeline is deterministic — the embedded core is a pure
function of the input table, so two runs on the same table produce
identical rendered output. -/
theorem pipeline_deterministic (t : Table) : pipeline t = pipeline t := rfl

/-- C3 counterexample: the header `Student - 1.1.6 Intro` matches the
`<type> - <code> <free text>` pattern (with alphabetic type token
`Student` and code `1.1.6`), yet the classifier does not return the
lower-cased type with module `1`: the student check of line 24 fires
first and the column is classified as the student column, with no
module. -/
theorem classifier_pattern_counterexample :
    headerMatch "Student - 1.1.6 Intro" = some ("Student", "1.1.6") ∧
    classify "Student - 1.1.6 Intro" ≠ ColClass.graded "student" "1" ∧
    classify "Student - 1.1.6 Intro" = ColClass.student := by decide

/-! ## List and character lemmas -/

theorem mem_takeWhile_pred {p : Char → Bool} :
    ∀ {l : List Char} {x : Char}, x ∈ l.takeWhile p → p x = true := by
  intro l
  induction l with
  | nil => intro x hx; simp at hx
  | cons a t ih =>
    intro x hx
    rw [List.takeWhile_cons] at hx
    by_cases hpa : p a = true
    · simp [hpa] at hx
      rcases hx with hx | hx
      · subst hx; exact hpa
      · exact ih hx
    · simp [hpa] at hx

theorem mem_takeWhile_mem {p : Char → Bool} :
    ∀ {l : List Char} {x : Char}, x ∈ l.takeWhile p → x ∈ l := by
  intro l
  induction l with
  | nil => intro x hx; simp at hx
  | cons a t ih =>
    intro x hx
    rw [List.takeWhile_cons] at hx
    by_cases hpa : p a = true
    · simp [hpa] at hx
      rcases hx with hx | hx
      · simp [hx]
      · simp [ih hx]
    · simp [hpa] at hx

theorem mem_dropWhile_mem {p : Char → Bool} :
    ∀ {l : List Char} {x : Char}, x ∈ l.dropWhile p → x ∈ l := by
  intro l
  induction l with
  | nil => intro x hx; simp at hx
  | cons a t ih =>
    intro x hx
    rw [List.dropWhile_cons] at hx
    by_cases hpa : p a = true
    · simp [hpa] at hx
      simp [ih hx]
    · simp [hpa] at hx
      exact List.mem_cons.mpr hx

theorem mem_stripL {l : List Char} {x : Char} (hx : x ∈ stripL l) : x ∈ l := by
  unfold stripL at hx
  rw [List.mem_reverse] at hx
  have h1 := mem_dropWhile_mem hx
  rw [List.mem_reverse] at h1
  exact mem_dropWhile_mem h1

theorem dropWhile_eq_self_of {p : Char → Bool} {l : List Char}
    (h : ∀ c ∈ l, p c = false) : l.dropWhile p = l := by
  cases l with
  | nil => rfl
  | cons a t => rw [List.dropWhile_cons, h a (by simp)]; simp

theorem stripL_eq_self {l : List Char} (h : ∀ c ∈ l, isWs c = false) : stripL l = l := by
  unfold stripL
  rw [dropWhile_eq_self_of h]
  rw [dropWhile_eq_self_of (fun c hc => h c (List.mem_reverse.mp hc))]
  exact List.reverse_reverse l

theorem isWs_false_of_wordChar {c : Char} (h : isWordChar c = true) : isWs c = false := by
  have h1 : c ≠ ' ' := by rintro rfl; exact absurd h (by decide)
  have h2 : c ≠ '\t' := by rintro rfl; exact absurd h (by decide)
  have h3 : c ≠ '\n' := by rintro rfl; exact absurd h (by decide)
  have h4 : c ≠ '\x0d' := by rintro rfl; exact absurd h (by decide)
  have h5 : c ≠ '\x0b' := by rintro rfl; exact absurd h (by decide)
  have h6 : c ≠ '\x0c' := by rintro rfl; exact absurd h (by decide)
  simp [isWs, h1, h2, h3, h4, h5, h6]

theorem isWs_false_of_codeChar {c : Char} (h : isCodeChar c = true) : isWs c = false := by
  by_cases hw : isWordChar c = true
  · exact isWs_false_of_wordChar hw
  · rw [Bool.not_eq_true] at hw
    have hdot : c = '.' := by
      have h2 := h
      simp only [isCodeChar, hw, Bool.false_or] at h2
      exact of_decide_eq_true h2
    subst hdot; decide

theorem headerMatch_some {c t code : String} (h : headerMatch c = some (t, code)) :
    (∀ x ∈ t.data, isWordChar x = true) ∧ (∀ x ∈ code.data, isCodeChar x = true) := by
  simp only [headerMatch] at h
  split at h
  · exact absurd h (by simp)
  · split at h
    · split at h
      · exact absurd h (by simp)
      · rw [Option.some_inj] at h
        have h1 : t = ⟨(c.data.dropWhile isWs).takeWhile isWordChar⟩ :=
          (congrArg Prod.fst h).symm
        have h2 : code = ⟨_⟩ := (congrArg Prod.snd h).symm
        constructor
        · intro x hx
          rw [h1] at hx
          exact mem_takeWhile_pred hx
        · intro x hx
          rw [h2] at hx
          exact mem_takeWhile_pred hx
    · exact absurd h (by simp)

/-- C3 (amended): for every column header that matches the
`<type> - <code> <free text>` pattern and is not claimed first by the
student-column check, the classifier returns the type lower-cased and the
module equal to the prefix of the code before its first dot, case
preserved; the trailing free text plays no role. -/
theorem classifier_type_and_module (c t code : String)
    (hm : headerMatch c = some (t, code)) (hstu : isStudentHeader c = false) :
    classify c = ColClass.graded (toLowerStr t) (firstTok code) := by
  obtain ⟨ht, hcode⟩ := headerMatch_some hm
  have hst : stripStr t = t := by
    cases t with
    | mk d =>
      show String.mk (stripL d) = String.mk d
      rw [stripL_eq_self (fun x hx => isWs_false_of_wordChar (ht x hx))]
  have hsc : stripStr code = code := by
    cases code with
    | mk d =>
      show String.mk (stripL d) = String.mk d
      rw [stripL_eq_self (fun x hx => isWs_false_of_codeChar (hcode x hx))]
  simp [classify, hstu, hm, hst, hsc]

/-- Witness for C3 (amended): a concrete graded header; the code
`B.2.7` yields the module `B`, case preserved. -/
theorem classifier_type_and_module_witness :
    headerMatch "Assessment - B.2.7 Build" = some ("Assessment", "B.2.7") ∧
    isStudentHeader "Assessment - B.2.7 Build" = false ∧
    classify "Assessment - B.2.7 Build" = ColClass.graded "assessment" "B" := by
  refine ⟨by decide, by decide, ?_⟩
  rw [classifier_type_and_module "Assessment - B.2.7 Build" "Assessment" "B.2.7"
    (by decide) (by decide)]
  decide

/-! ## Unmatched headers (C9) -/

theorem foldl_registryStep_filter (c : String) (hcl : classify c = ColClass.unclassified) :
    ∀ (hs : List String) (acc : List String),
      (hs.filter (fun x => x != c)).foldl registryStep acc = hs.foldl registryStep acc := by
  intro hs
  induction hs with
  | nil => intro _; rfl
  | cons a t ih =>
    intro acc
    rw [List.filter_cons]
    by_cases hbc : (a != c) = true
    · rw [if_pos hbc, List.foldl_cons, List.foldl_cons]
      exact ih (registryStep acc a)
    · rw [if_neg hbc, List.foldl_cons]
      have hac : a = c := by simpa [bne] using hbc
      have hstep : registryStep acc a = acc := by
        rw [hac, registryStep, hcl]
      rw [hstep]
      exact ih acc

/-- C9: a header that does not match the type-code pattern and does not
start with `student` is classified unclassified, belongs to no module's
assessment or lab column list (so contributes to no aggregation), and
removing it from the header list leaves the module registry unchanged. -/
theorem unmatched_header_excluded (hs : List String) (c : String)
    (hm : headerMatch c = none) (hstu : isStudentHeader c = false) :
    classify c = ColClass.unclassified ∧
    (∀ m k, c ∉ colsOfKind hs m k) ∧
    registry (hs.filter (fun x => x != c)) = registry hs := by
  have hcl : classify c = ColClass.unclassified := by simp [classify, hstu, hm]
  refine ⟨hcl, ?_, ?_⟩
  · intro m k hmem
    rw [colsOfKind, List.mem_filter] at hmem
    rw [hcl] at hmem
    simp at hmem
  · exact foldl_registryStep_filter c hcl hs []

/-- Witness for C9: the free-text header `Notes` is unclassified and
aggregates nowhere. -/
theorem unmatched_header_excluded_witness :
    classify "Notes" = ColClass.unclassified ∧
    "Notes" ∉ colsOfKind ["Student", "Notes", "Assessment - 1.1 X"] "1" Kind.assessment ∧
    registry (["Student", "Notes", "Assessment - 1.1 X"].filter (fun x => x != "Notes")) =
      registry ["Student", "Notes", "Assessment - 1.1 X"] :=
  ⟨(unmatched_header_excluded ["Student", "Notes", "Assessment - 1.1 X"] "Notes"
      (by decide) (by decide)).1,
   (unmatched_header_excluded ["Student", "Notes", "Assessment - 1.1 X"] "Notes"
      (by decide) (by decide)).2.1 "1" Kind.assessment,
   (unmatched_header_excluded ["Student", "Notes", "Assessment - 1.1 X"] "Notes"
      (by decide) (by decide)).2.2⟩

/-! ## Kind dispatch (C4) -/

theorem containsAux_of_isPrefixOf {h n : List Char} (hp : n.isPrefixOf h = true) :
    containsAux h n = true := by
  cases h with
  | nil => exact hp
  | cons a t => simp [containsAux, hp]

theorem isPrefixOf_append_left :
    ∀ (a b h : List Char), (a ++ b).isPrefixOf h = true → a.isPrefixOf h = true := by
  intro a
  induction a with
  | nil => intro b h _; simp [List.isPrefixOf]
  | cons x a ih =>
    intro b h hp
    cases h with
    | nil => simp [List.isPrefixOf] at hp
    | cons y t =>
      simp only [List.cons_append, List.isPrefixOf, Bool.and_eq_true] at hp ⊢
      exact ⟨hp.1, ih b t hp.2⟩

theorem strContains_of_pyStartsWith {t p : String} (h : pyStartsWith t p = true) :
    strContains t p = true :=
  containsAux_of_isPrefixOf h

theorem strContains_assess_of_startsWith_assessment {t : String}
    (h : pyStartsWith t "assessment" = true) : strContains t "assess" = true := by
  unfold pyStartsWith at h
  have hsplit : "assessment".data = "assess".data ++ "ment".data := by decide
  rw [hsplit] at h
  exact containsAux_of_isPrefixOf (isPrefixOf_append_left _ _ _ h)

/-- C4: dispatch of a matched header into the aggregation lists.  If the
(lower-cased) type token contains `assess`, the column is aggregated as
assessment; otherwise, if it contains `lab`, as lab; otherwise it is
still aggregated, as assessment by default — never dropped. -/
theorem kind_dispatch (hs : List String) (c typ m : String)
    (hc : c ∈ hs) (hcl : classify c = ColClass.graded typ m) :
    (strContains (toLowerStr typ) "assess" = true →
      c ∈ colsOfKind hs m Kind.assessment ∧ c ∉ colsOfKind hs m Kind.lab) ∧
    (strContains (toLowerStr typ) "assess" = false →
      strContains (toLowerStr typ) "lab" = true →
      c ∈ colsOfKind hs m Kind.lab ∧ c ∉ colsOfKind hs m Kind.assessment) ∧
    (strContains (toLowerStr typ) "assess" = false →
      strContains (toLowerStr typ) "lab" = false →
      c ∈ colsOfKind hs m Kind.assessment ∧ c ∉ colsOfKind hs m Kind.lab) := by
  have hmem : ∀ k : Kind, kindOf typ = k → c ∈ colsOfKind hs m k := by
    intro k hk
    rw [colsOfKind, List.mem_filter]
    refine ⟨hc, ?_⟩
    rw [hcl]
    simp [hk]
  have hnmem : ∀ k : Kind, kindOf typ ≠ k → c ∉ colsOfKind hs m k := by
    intro k hk hmem2
    rw [colsOfKind, List.mem_filter] at hmem2
    rw [hcl] at hmem2
    simp at hmem2
    exact hk hmem2.2
  refine ⟨?_, ?_, ?_⟩
  · intro ha
    have hk : kindOf typ = Kind.assessment := by
      unfold kindOf; simp [ha]
    exact ⟨hmem _ hk, hnmem _ (by simp [hk])⟩
  · intro ha hl
    have hstart : pyStartsWith (toLowerStr typ) "assessment" = false := by
      cases hps : pyStartsWith (toLowerStr typ) "assessment"
      · rfl
      · exact absurd (strContains_assess_of_startsWith_assessment hps) (by simp [ha])
    have hk : kindOf typ = Kind.lab := by
      unfold kindOf; simp [ha, hstart, hl]
    exact ⟨hmem _ hk, hnmem _ (by simp [hk])⟩
  · intro ha hl
    have hstart : pyStartsWith (toLowerStr typ) "assessment" = false := by
      cases hps : pyStartsWith (toLowerStr typ) "assessment"
      · rfl
      · exact absurd (strContains_assess_of_startsWith_assessment hps) (by simp [ha])
    have hlstart : pyStartsWith (toLowerStr typ) "lab" = false := by
      cases hps : pyStartsWith (toLowerStr typ) "lab"
      · rfl
      · exact absurd (strContains_of_pyStartsWith hps) (by simp [hl])
    have hk : kindOf typ = Kind.assessment := by
      unfold kindOf; simp [ha, hstart, hl, hlstart]
    exact ⟨hmem _ hk, hnmem _ (by simp [hk])⟩

/-- Witness for C4: the unrecognized type token `Quiz` still aggregates,
as assessment. -/
theorem kind_dispatch_witness :
    classify "Quiz - 2.1 Review" = ColClass.graded "quiz" "2" ∧
    strContains (toLowerStr "quiz") "assess" = false ∧
    strContains (toLowerStr "quiz") "lab" = false ∧
    "Quiz - 2.1 Review" ∈ colsOfKind ["Quiz - 2.1 Review"] "2" Kind.assessment ∧
    "Quiz - 2.1 Review" ∉ colsOfKind ["Quiz - 2.1 Review"] "2" Kind.lab := by
  refine ⟨by decide, by decide, by decide, ?_, ?_⟩
  · exact ((kind_dispatch ["Quiz - 2.1 Review"] "Quiz - 2.1 Review" "quiz" "2"
      (by simp) (by decide)).2.2 (by decide) (by decide)).1
  · exact ((kind_dispatch ["Quiz - 2.1 Review"] "Quiz - 2.1 Review" "quiz" "2"
      (by simp) (by decide)).2.2 (by decide) (by decide)).2

/-! ## Pipeline decomposition -/

theorem pipeline_some_elim {t : Table} {out : RTable} (h : pipeline t = some out) :
    ∃ scol, studentColOf (strippedHeaders t) = some scol ∧
      optMap (outRow (strippedHeaders t) scol) t.rows = some out.rows ∧
      out.columns = tableColumns (strippedHeaders t) := by
  simp only [pipeline] at h
  split at h
  · exact absurd h (by simp)
  · next scol hscol =>
      split at h
      · exact absurd h (by simp)
      · next rs hrs =>
          have hout : RTable.mk (tableColumns (strippedHeaders t)) rs = out :=
            Option.some_inj.mp h
          refine ⟨scol, hscol, ?_, ?_⟩
          · rw [← hout]; exact hrs
          · rw [← hout]

theorem outRow_head {hs : List String} {scol : String} {row r : List (Option String)}
    (h : outRow hs scol row = some r) : r.head? = some (cellOf hs row scol) := by
  unfold outRow at h
  split at h
  · have := Option.some_inj.mp h
    rw [← this]
    rfl
  · exact absurd h (by simp)

/-- C1: whenever the pipeline completes, the output column order is the
student column first, then one `Module {m} Assignments` column per module
in registry (first-seen) order, then one `Module {m} Labs` column per
module in the same order — independent of how the input columns were
interleaved, since the statement holds for every input table. -/
theorem output_column_order (t : Table) (out : RTable) (h : pipeline t = some out) :
    out.columns = "Student" :: ((registry (strippedHeaders t)).map assignLabel ++
      (registry (strippedHeaders t)).map labLabel) := by
  obtain ⟨scol, _, _, hcols⟩ := pipeline_some_elim h
  rw [hcols]; rfl

/-- Witness for C1, on a table whose lab column of module `2` precedes
the assessment column of module `1`: the registry order is `[2, 1]` and
all assignment columns still precede all lab columns. -/
theorem output_column_order_witness :
    pipeline ⟨["Student", "Lab - 2.1 L", "Assessment - 1.1 A"], []⟩ =
      some ⟨["Student", "Module 2 Assignments", "Module 1 Assignments",
             "Module 2 Labs", "Module 1 Labs"], []⟩ ∧
    (RTable.mk ["Student", "Module 2 Assignments", "Module 1 Assignments",
             "Module 2 Labs", "Module 1 Labs"] []).columns =
      "Student" ::
        ((registry (strippedHeaders ⟨["Student", "Lab - 2.1 L", "Assessment - 1.1 A"], []⟩)).map
            assignLabel ++
          (registry (strippedHeaders ⟨["Student", "Lab - 2.1 L", "Assessment - 1.1 A"], []⟩)).map
            labLabel) :=
  ⟨by decide, output_column_order ⟨["Student", "Lab - 2.1 L", "Assessment - 1.1 A"], []⟩ _
    (by decide)⟩

/-- C10: whenever the pipeline completes, the first output column is
headed by the literal label `Student` (whatever the actual name of the
student-identity column), and each output row starts with the raw cell of
the student-identity column, looked up by label and never passed through
the value normalizer. -/
theorem student_column_identity (t : Table) (out : RTable) (scol : String)
    (h : pipeline t = some out) (hscol : studentColOf (strippedHeaders t) = some scol) :
    out.columns.head? = some "Student" ∧
    ∀ (i : Nat) (row r : List (Option String)),
      t.rows[i]? = some row → out.rows[i]? = some r →
      r.head? = some (cellOf (strippedHeaders t) row scol) := by
  obtain ⟨scol2, hscol2, hrows, hcols⟩ := pipeline_some_elim h
  have hsc : scol2 = scol := by
    rw [hscol2] at hscol
    exact Option.some_inj.mp hscol
  subst hsc
  constructor
  · rw [hcols]; rfl
  · intro i row r hrow hr
    obtain ⟨r2, hr2, hget⟩ := optMap_getElem _ hrows hrow
    have heq : r2 = r := by
      rw [hget] at hr
      exact Option.some_inj.mp hr
    subst heq
    exact outRow_head hr2

/-- Witness for C10: the student column is named `Student Name`, the
output header is still the literal `Student`, and the raw cell `95%` is
carried over unnormalized. -/
theorem student_column_identity_witness :
    pipeline ⟨["Student Name", "Assessment - 1.1 X"], [[some "95%", some "80%"]]⟩ =
      some ⟨["Student", "Module 1 Assignments", "Module 1 Labs"],
            [[some "95%", some "80.00%", some ""]]⟩ ∧
    (RTable.mk ["Student", "Module 1 Assignments", "Module 1 Labs"]
        [[some "95%", some "80.00%", some ""]]).columns.head? = some "Student" ∧
    ([some "95%", some "80.00%", (some "" : Option String)].head? =
      some (cellOf (strippedHeaders ⟨["Student Name", "Assessment - 1.1 X"],
        [[some "95%", some "80%"]]⟩) [some "95%", some "80%"] "Student Name")) ∧
    cellOf (strippedHeaders ⟨["Student Name", "Assessment - 1.1 X"],
        [[some "95%", some "80%"]]⟩) [some "95%", some "80%"] "Student Name" = some "95%" :=
  ⟨by decide,
   (student_column_identity ⟨["Student Name", "Assessment - 1.1 X"], [[some "95%", some "80%"]]⟩
      ⟨["Student", "Module 1 Assignments", "Module 1 Labs"],
       [[some "95%", some "80.00%", some ""]]⟩ "Student Name" (by decide) (by decide)).1,
   (student_column_identity ⟨["Student Name", "Assessment - 1.1 X"], [[some "95%", some "80%"]]⟩
      ⟨["Student", "Module 1 Assignments", "Module 1 Labs"],
       [[some "95%", some "80.00%", some ""]]⟩ "Student Name" (by decide) (by decide)).2
      0 [some "95%", some "80%"]
      [some "95%", some "80.00%", some ""] (by decide) (by decide),
   by decide⟩

/-! ## The normalizer on digit-free strings (C5) -/

theorem takeWhile_eq_nil_of {p : Char → Bool} {l : List Char} (h : ∀ c ∈ l, p c = false) :
    l.takeWhile p = [] := by
  cases l with
  | nil => rfl
  | cons a t => simp [List.takeWhile_cons, h a (by simp)]

theorem splitSign_mem {l : List Char} {c : Char} (h : c ∈ (splitSign l).2) : c ∈ l := by
  unfold splitSign at h
  split at h
  · exact List.mem_cons.mpr (Or.inr h)
  · exact List.mem_cons.mpr (Or.inr h)
  · exact h

theorem parseMantissa_none {l : List Char} (h : ∀ c ∈ l, c.isDigit = false) :
    parseMantissa l = none := by
  simp only [parseMantissa]
  rw [takeWhile_eq_nil_of h, dropWhile_eq_self_of h]
  split
  · rename_i r2
    have h2 : r2.takeWhile Char.isDigit = [] := by
      apply takeWhile_eq_nil_of
      intro c hc
      exact h c (List.mem_cons.mpr (Or.inr hc))
    simp [h2]
  · simp

theorem parsePyCore_no_digits {l : List Char} (h : ∀ c ∈ l, c.isDigit = false)
    (hinf : ¬((splitSign l).2.map Char.toLower = "inf".data ∨
              (splitSign l).2.map Char.toLower = "infinity".data)) :
    parsePyCore l = none ∨ parsePyCore l = some PVal.nan := by
  have h2 : ∀ c ∈ (splitSign l).2, c.isDigit = false := fun c hc => h c (splitSign_mem hc)
  simp only [parsePyCore]
  split
  · rename_i hcond
    exact absurd hcond hinf
  · split
    · exact Or.inr rfl
    · rw [parseMantissa_none h2]
      exact Or.inl rfl

theorem stripUAux_mem_fwd :
    ∀ (L : List Char) (prev : Option Char) (l : List Char),
      stripUAux prev L = some l → ∀ c ∈ L, c ∈ l ∨ c = '_' := by
  intro L
  induction L with
  | nil => intro prev l hres c hc; simp at hc
  | cons a rest ih =>
    intro prev l hres c hc
    simp only [stripUAux] at hres
    by_cases ha : a = '_'
    · rw [if_pos ha] at hres
      split at hres
      · split at hres
        · rcases List.mem_cons.mp hc with rfl | hc2
          · exact Or.inr ha
          · exact ih (some '_') l hres c hc2
        · exact absurd hres (by simp)
      · exact absurd hres (by simp)
    · rw [if_neg ha] at hres
      rcases Option.map_eq_some'.mp hres with ⟨t, ht, hl⟩
      rcases List.mem_cons.mp hc with rfl | hc2
      · left; rw [← hl]; simp
      · rcases ih (some a) t ht c hc2 with h3 | h3
        · left; rw [← hl]; simp [h3]
        · exact Or.inr h3

theorem stripUAux_mem_rev :
    ∀ (L : List Char) (prev : Option Char) (l : List Char),
      stripUAux prev L = some l → ∀ c ∈ l, c ∈ L := by
  intro L
  induction L with
  | nil =>
    intro prev l hres c hc
    simp only [stripUAux] at hres
    rw [← Option.some_inj.mp hres] at hc
    simp at hc
  | cons a rest ih =>
    intro prev l hres c hc
    simp only [stripUAux] at hres
    by_cases ha : a = '_'
    · rw [if_pos ha] at hres
      split at hres
      · split at hres
        · exact List.mem_cons.mpr (Or.inr (ih (some '_') l hres c hc))
        · exact absurd hres (by simp)
      · exact absurd hres (by simp)
    · rw [if_neg ha] at hres
      rcases Option.map_eq_some'.mp hres with ⟨t, ht, hl⟩
      rw [← hl] at hc
      rcases List.mem_cons.mp hc with rfl | hc2
      · simp
      · exact List.mem_cons.mpr (Or.inr (ih (some a) t ht c hc2))

theorem stripUnders_mem {L l : List Char} (h : stripUnders L = some l) :
    ∀ c ∈ L, c ∈ l ∨ c = '_' := stripUAux_mem_fwd L none l h

theorem stripUnders_mem_rev {L l : List Char} (h : stripUnders L = some l) :
    ∀ c ∈ l, c ∈ L := stripUAux_mem_rev L none l h

theorem numCoreAt_none {l2 : List Char} (h : ∀ c ∈ l2, c.isDigit = false) :
    numCoreAt l2 = none := by
  simp only [numCoreAt]
  rw [takeWhile_eq_nil_of h, dropWhile_eq_self_of h]
  split
  · rename_i r2
    have h2 : r2.takeWhile Char.isDigit = [] := by
      apply takeWhile_eq_nil_of
      intro c hc
      exact h c (List.mem_cons.mpr (Or.inr hc))
    simp [h2]
  · simp

theorem numMatchAt_none {l : List Char} (h : ∀ c ∈ l, c.isDigit = false) :
    numMatchAt l = none := by
  have h2 : ∀ c ∈ (splitSign l).2, c.isDigit = false := fun c hc => h c (splitSign_mem hc)
  simp only [numMatchAt]
  rw [numCoreAt_none h2]

theorem firstNumAux_none {l : List Char} (h : ∀ c ∈ l, c.isDigit = false) :
    firstNumAux l = none := by
  induction l with
  | nil => rfl
  | cons c r ih =>
    simp only [firstNumAux]
    rw [numMatchAt_none h]
    exact ih (fun x hx => h x (by simp [hx]))

theorem pct_to_float_no_digits {s : String} (h : ∀ c ∈ s.data, c.isDigit = false)
    (hinf : isInfLit s = false) : pct_to_float (some s) = PVal.nan := by
  simp only [pct_to_float]
  have hmem : ∀ c ∈ removePct (stripL s.data), c.isDigit = false := by
    intro c hc
    unfold removePct at hc
    exact h c (mem_stripL (List.mem_filter.mp hc).1)
  by_cases hnil : removePct (stripL s.data) = []
  · simp [hnil]
  · rw [if_neg hnil]
    split
    · rename_i q hq
      simp only [pyFloatL] at hq
      split at hq
      · exact absurd hq (by simp)
      · rename_i l2 hsu
        have hl : ∀ c ∈ l2, c.isDigit = false := fun c hc =>
          hmem c (mem_stripL (stripUnders_mem_rev hsu c hc))
        have hinf2 : ¬((splitSign l2).2.map Char.toLower = "inf".data ∨
            (splitSign l2).2.map Char.toLower = "infinity".data) := by
          intro hcontra
          unfold isInfLit at hinf
          rw [hsu] at hinf
          rcases hcontra with hc2 | hc2 <;> simp [hc2] at hinf
        rcases parsePyCore_no_digits hl hinf2 with hres | hres
        · rw [hq] at hres
          exact absurd hres (by simp)
        · rw [hq] at hres
          exact Option.some_inj.mp hres
    · rw [firstNumAux_none hmem]

/-- C5 counterexample: the digit-free string `inf` (no embedded number)
does not normalize to missing — `float('inf')` succeeds, so the
normalizer returns a present positive infinity (`pd.notna` keeps it, and
it renders as `inf%` downstream). -/
theorem normalizer_inf_counterexample :
    "inf".data.all (fun c => !c.isDigit) = true ∧
    pct_to_float (some "inf") = PVal.pinf ∧
    pct_to_float (some "inf") ≠ PVal.nan ∧
    renderMean (PVal.pinf :: []) = "inf%" := by decide

/-- C5 (amended): the value normalizer maps `91%` and `91` to 91, the
blank or absent cell to missing, `N/A 85` to 85 (the first embedded
signed decimal number of the stripped, `%`-free text), and `abc` to
missing; and a string with no digit anywhere (hence no embedded number)
normalizes to missing — unless its cleaned text is an optionally signed,
case-insensitive `inf`/`infinity` literal, which Python `float` accepts
as a present infinity.  No input raises. -/
theorem normalizer_spec :
    (∀ s : String, (∀ c ∈ s.data, c.isDigit = false) → isInfLit s = false →
      pct_to_float (some s) = PVal.nan) ∧
    pct_to_float none = PVal.nan ∧
    pct_to_float (some "91%") = PVal.fin ⟨91, 1⟩ ∧
    pct_to_float (some "91") = PVal.fin ⟨91, 1⟩ ∧
    pct_to_float (some "") = PVal.nan ∧
    pct_to_float (some "N/A 85") = PVal.fin ⟨85, 1⟩ ∧
    pct_to_float (some "abc") = PVal.nan :=
  ⟨fun _ h hinf => pct_to_float_no_digits h hinf, by decide, by decide, by decide,
   by decide, by decide, by decide⟩

/-- Witness for C5 (amended): the digit-free clause at a concrete
non-infinity string. -/
theorem normalizer_spec_witness : pct_to_float (some "total: n/a") = PVal.nan :=
  normalizer_spec.1 "total: n/a" (by decide) (by decide)

/-! ## Characters accepted by a successful float parse (bridge for C6) -/

/-- Characters that can occur in a string accepted by `parsePyCore`. -/
def isFloatChar (c : Char) : Bool :=
  c.isDigit || c = '+' || c = '-' || c = '.' || c = 'e' || c = 'E'

theorem splitSign_cases {l : List Char} {c : Char} (hc : c ∈ l) :
    c = '+' ∨ c = '-' ∨ c ∈ (splitSign l).2 := by
  unfold splitSign
  split
  · rcases List.mem_cons.mp hc with h | h
    · exact Or.inl h
    · exact Or.inr (Or.inr h)
  · rcases List.mem_cons.mp hc with h | h
    · exact Or.inr (Or.inl h)
    · exact Or.inr (Or.inr h)
  · exact Or.inr (Or.inr hc)

theorem parseMantissa_mem {l2 : List Char} {m : Frac} {rest : List Char}
    (h : parseMantissa l2 = some (m, rest)) :
    ∀ c ∈ l2, c.isDigit = true ∨ c = '.' ∨ c ∈ rest := by
  intro c hc
  have hsplit : l2.takeWhile Char.isDigit ++ l2.dropWhile Char.isDigit = l2 :=
    List.takeWhile_append_dropWhile _ _
  rw [← hsplit] at hc
  rcases List.mem_append.mp hc with h1 | h1
  · exact Or.inl (mem_takeWhile_pred h1)
  · simp only [parseMantissa] at h
    split at h
    · rename_i r2 heq
      rw [heq] at h1
      rcases List.mem_cons.mp h1 with h2 | h2
      · exact Or.inr (Or.inl h2)
      · have hsplit2 : r2.takeWhile Char.isDigit ++ r2.dropWhile Char.isDigit = r2 :=
          List.takeWhile_append_dropWhile _ _
        rw [← hsplit2] at h2
        rcases List.mem_append.mp h2 with h3 | h3
        · exact Or.inl (mem_takeWhile_pred h3)
        · split at h
          · exact absurd h (by simp)
          · have heq2 := Option.some_inj.mp h
            have hrest : rest = r2.dropWhile Char.isDigit := (congrArg Prod.snd heq2).symm
            rw [hrest]
            exact Or.inr (Or.inr h3)
    · split at h
      · exact absurd h (by simp)
      · have heq2 := Option.some_inj.mp h
        have hrest : rest = l2.dropWhile Char.isDigit := (congrArg Prod.snd heq2).symm
        rw [hrest]
        exact Or.inr (Or.inr h1)

theorem parseExpDigits_mem {r : List Char} {ex : Int} (h : parseExpDigits r = some ex) :
    ∀ c ∈ r, c.isDigit = true ∨ c = '+' ∨ c = '-' := by
  intro c hc
  rcases splitSign_cases hc with h1 | h1 | h1
  · exact Or.inr (Or.inl h1)
  · exact Or.inr (Or.inr h1)
  · simp only [parseExpDigits] at h
    split at h
    · exact absurd h (by simp)
    · split at h
      · rename_i hdrop
        have hsplit : (splitSign r).2.takeWhile Char.isDigit ++
            (splitSign r).2.dropWhile Char.isDigit = (splitSign r).2 :=
          List.takeWhile_append_dropWhile _ _
        rw [hdrop, List.append_nil] at hsplit
        rw [← hsplit] at h1
        exact Or.inl (mem_takeWhile_pred h1)
      · exact absurd h (by simp)

theorem parseAfterMantissa_mem {rest : List Char} {ex : Int}
    (h : parseAfterMantissa rest = some ex) :
    ∀ c ∈ rest, c.isDigit = true ∨ c = '+' ∨ c = '-' ∨ c = 'e' ∨ c = 'E' := by
  intro c hc
  unfold parseAfterMantissa at h
  split at h
  · simp at hc
  · rename_i e r
    split at h
    · rename_i he
      rcases List.mem_cons.mp hc with h3 | h3
      · subst h3; rcases he with he | he <;> simp [he]
      · rcases parseExpDigits_mem h c h3 with h4 | h4 | h4 <;> simp [h4]
    · exact absurd h (by simp)

theorem char_clean_of_lower_mem {c : Char}
    (h : Char.toLower c ∈ ('i' :: 'n' :: 'f' :: 't' :: 'y' :: 'a' :: [])) :
    isWs c = false ∧ (c != '%') = true := by
  have h1 : c ≠ ' ' := by rintro rfl; exact absurd h (by decide)
  have h2 : c ≠ '\t' := by rintro rfl; exact absurd h (by decide)
  have h3 : c ≠ '\n' := by rintro rfl; exact absurd h (by decide)
  have h4 : c ≠ '\x0d' := by rintro rfl; exact absurd h (by decide)
  have h5 : c ≠ '\x0b' := by rintro rfl; exact absurd h (by decide)
  have h6 : c ≠ '\x0c' := by rintro rfl; exact absurd h (by decide)
  have h7 : c ≠ '%' := by rintro rfl; exact absurd h (by decide)
  exact ⟨by simp [isWs, h1, h2, h3, h4, h5, h6], by simp [h7]⟩

theorem isFloatChar_not_ws {c : Char} (h : isFloatChar c = true) : isWs c = false := by
  have h1 : c ≠ ' ' := by rintro rfl; exact absurd h (by decide)
  have h2 : c ≠ '\t' := by rintro rfl; exact absurd h (by decide)
  have h3 : c ≠ '\n' := by rintro rfl; exact absurd h (by decide)
  have h4 : c ≠ '\x0d' := by rintro rfl; exact absurd h (by decide)
  have h5 : c ≠ '\x0b' := by rintro rfl; exact absurd h (by decide)
  have h6 : c ≠ '\x0c' := by rintro rfl; exact absurd h (by decide)
  simp [isWs, h1, h2, h3, h4, h5, h6]

theorem isFloatChar_not_pct {c : Char} (h : isFloatChar c = true) : (c != '%') = true := by
  by_cases hc : c = '%'
  · subst hc; exact absurd h (by decide)
  · simp [hc]

theorem parsePyCore_nil : parsePyCore ([] : List Char) = none := by decide

/-- A string accepted by the float parser contains no whitespace and no
`%` character — the facts that make the normalizer's preprocessing the
identity on it. -/
theorem parsePyCore_clean {l : List Char} {v : PVal} (h : parsePyCore l = some v) :
    ∀ c ∈ l, isWs c = false ∧ (c != '%') = true := by
  intro c hc
  rcases splitSign_cases hc with h1 | h1 | h1
  · subst h1; exact ⟨by decide, by decide⟩
  · subst h1; exact ⟨by decide, by decide⟩
  · have hlow : Char.toLower c ∈ (splitSign l).2.map Char.toLower :=
      List.mem_map_of_mem _ h1
    simp only [parsePyCore] at h
    split at h
    · rename_i hcond
      rcases hcond with hcond | hcond
      · rw [hcond] at hlow
        simp only [List.mem_cons, List.not_mem_nil, or_false] at hlow
        rcases hlow with h2 | h2 | h2 <;> exact char_clean_of_lower_mem (by simp [h2])
      · rw [hcond] at hlow
        simp only [List.mem_cons, List.not_mem_nil, or_false] at hlow
        rcases hlow with h2 | h2 | h2 | h2 | h2 | h2 | h2 | h2 <;>
          exact char_clean_of_lower_mem (by simp [h2])
    · split at h
      · rename_i hcond
        rw [hcond] at hlow
        simp only [List.mem_cons, List.not_mem_nil, or_false] at hlow
        rcases hlow with h2 | h2 | h2 <;> exact char_clean_of_lower_mem (by simp [h2])
      · split at h
        · exact absurd h (by simp)
        · rename_i m rest hm
          rcases parseMantissa_mem hm c h1 with h2 | h2 | h2
          · exact ⟨isFloatChar_not_ws (by simp [isFloatChar, h2]),
                   isFloatChar_not_pct (by simp [isFloatChar, h2])⟩
          · exact ⟨isFloatChar_not_ws (by simp [isFloatChar, h2]),
                   isFloatChar_not_pct (by simp [isFloatChar, h2])⟩
          · split at h
            · rename_i ex hex
              rcases parseAfterMantissa_mem hex c h2 with h4 | h4 | h4 | h4 | h4 <;>
                exact ⟨isFloatChar_not_ws (by simp [isFloatChar, h4]),
                       isFloatChar_not_pct (by simp [isFloatChar, h4])⟩
            · exact absurd h (by simp)

/-- If Python `float` accepts the raw string, then `pct_to_float`
returns the same value: a successfully parsed string contains no `%` and
no whitespace (beyond what `float` itself strips), so the normalizer's
strip-and-remove-percent preprocessing is the identity on it and its
direct parse takes the same path. -/
theorem pct_of_parsePyFloat {s : String} {v : PVal} (h : parsePyFloat s = some v) :
    pct_to_float (some s) = v := by
  unfold parsePyFloat at h
  simp only [pyFloatL] at h
  split at h
  · exact absurd h (by simp)
  · rename_i l hsu
    have hclean : ∀ c ∈ l, isWs c = false ∧ (c != '%') = true := parsePyCore_clean h
    have hL : ∀ c ∈ stripL s.data, isWs c = false ∧ (c != '%') = true := by
      intro c hc
      rcases stripUnders_mem hsu c hc with hcl | rfl
      · exact hclean c hcl
      · exact ⟨by decide, by decide⟩
    have hnoPct : removePct (stripL s.data) = stripL s.data := by
      unfold removePct
      rw [List.filter_eq_self]
      intro a ha
      exact (hL a ha).2
    have hnoWs : stripL (stripL s.data) = stripL s.data :=
      stripL_eq_self (fun c hc => (hL c hc).1)
    have hne : stripL s.data ≠ [] := by
      intro hnil
      rw [hnil] at hsu
      have hl0 : l = [] := (Option.some_inj.mp hsu).symm
      rw [hl0] at h
      exact absurd h (by simp [parsePyCore_nil])
    simp only [pct_to_float]
    rw [hnoPct, if_neg hne]
    have hdirect : pyFloatL (stripL s.data) = some v := by
      simp only [pyFloatL]
      rw [hnoWs, hsu]
      exact h
    rw [hdirect]

/-! ## Per-cell means (C6) -/

theorem astypeCell_pct {scol c : String} {cell : Option String} {w : PVal}
    (h : astypeCell scol c cell = some w) : w = pct_to_float cell := by
  unfold astypeCell at h
  split at h
  · split at h
    · have hw := Option.some_inj.mp h
      subst hw
      rfl
    · rename_i s
      exact (pct_of_parsePyFloat h).symm
  · exact (Option.some_inj.mp h).symm

theorem kindVals_eq_presentVals {hs : List String} {scol : String}
    {row : List (Option String)} {m : String} {k : Kind} {vs : List PVal}
    (h : kindVals hs scol row m k = some vs) : vs = presentVals hs row m k := by
  unfold kindVals at h
  cases hopt : optMap (fun c => astypeCell scol c (cellOf hs row c)) (colsOfKind hs m k) with
  | none => rw [hopt] at h; exact absurd h (by simp)
  | some ws =>
    rw [hopt] at h
    have hvs : ws.filter (fun v => decide (v ≠ PVal.nan)) = vs := Option.some_inj.mp h
    have hws : ws = (colsOfKind hs m k).map (fun c => pct_to_float (cellOf hs row c)) :=
      optMap_eq_map _ _ hopt (fun a _ b hb => astypeCell_pct hb)
    rw [← hvs, hws]
    rfl

/-- C6: whenever the pipeline completes, each rendered grading cell is
`renderMean` of the present (non-missing) normalized values of that
module's columns of the given kind: the arithmetic mean (sum of present
values over their count) formatted to two decimals with a literal `%`
suffix; and `renderMean [] = ""`, so a module with no columns of the
kind, or with all values missing in the row, renders the empty string —
never `0.00%` and never a NaN rendering. -/
theorem cell_is_formatted_mean (t : Table) (out : RTable) (h : pipeline t = some out) :
    renderMean ([] : List PVal) = "" ∧
    ∀ (i j : Nat) (row r : List (Option String)) (m : String),
      t.rows[i]? = some row → out.rows[i]? = some r →
      (registry (strippedHeaders t))[j]? = some m →
      r[1 + j]? =
        some (some (renderMean (presentVals (strippedHeaders t) row m Kind.assessment))) ∧
      r[1 + (registry (strippedHeaders t)).length + j]? =
        some (some (renderMean (presentVals (strippedHeaders t) row m Kind.lab))) := by
  obtain ⟨scol, hscol, hrows, hcols⟩ := pipeline_some_elim h
  refine ⟨rfl, ?_⟩
  intro i j row r m hrow hr hreg
  obtain ⟨r2, hr2, hget⟩ := optMap_getElem _ hrows hrow
  have heqr : r2 = r := by
    rw [hget] at hr
    exact Option.some_inj.mp hr
  rw [heqr] at hr2
  unfold outRow at hr2
  cases hA : optMap (fun m2 => (kindVals (strippedHeaders t) scol row m2 Kind.assessment).map
      (fun vs => some (renderMean vs))) (registry (strippedHeaders t)) with
  | none => rw [hA] at hr2; exact absurd hr2 (by simp)
  | some aCells =>
    cases hL : optMap (fun m2 => (kindVals (strippedHeaders t) scol row m2 Kind.lab).map
        (fun vs => some (renderMean vs))) (registry (strippedHeaders t)) with
    | none => rw [hA, hL] at hr2; exact absurd hr2 (by simp)
    | some lCells =>
      rw [hA, hL] at hr2
      have hr2eq : cellOf (strippedHeaders t) row scol :: (aCells ++ lCells) = r :=
        Option.some_inj.mp hr2
      have hlenA : aCells.length = (registry (strippedHeaders t)).length := optMap_length _ hA
      have hj : j < (registry (strippedHeaders t)).length := by
        by_contra hj2
        rw [List.getElem?_eq_none (Nat.le_of_not_lt hj2)] at hreg
        exact absurd hreg (by simp)
      obtain ⟨bA, hbA, hgetA⟩ := optMap_getElem _ hA hreg
      obtain ⟨bL, hbL, hgetL⟩ := optMap_getElem _ hL hreg
      have hvA : bA = some (renderMean (presentVals (strippedHeaders t) row m Kind.assessment)) := by
        cases hkv : kindVals (strippedHeaders t) scol row m Kind.assessment with
        | none => rw [hkv] at hbA; exact absurd hbA (by simp)
        | some vs =>
          rw [hkv] at hbA
          rw [← Option.some_inj.mp hbA, kindVals_eq_presentVals hkv]
      have hvL : bL = some (renderMean (presentVals (strippedHeaders t) row m Kind.lab)) := by
        cases hkv : kindVals (strippedHeaders t) scol row m Kind.lab with
        | none => rw [hkv] at hbL; exact absurd hbL (by simp)
        | some vs =>
          rw [hkv] at hbL
          rw [← Option.some_inj.mp hbL, kindVals_eq_presentVals hkv]
      constructor
      · rw [← hr2eq, Nat.add_comm 1 j, List.getElem?_cons_succ, List.getElem?_append]
        rw [if_pos (show j < aCells.length by omega)]
        rw [hgetA, hvA]
      · rw [← hr2eq]
        have hidx : 1 + (registry (strippedHeaders t)).length + j =
            ((registry (strippedHeaders t)).length + j) + 1 := by omega
        rw [hidx, List.getElem?_cons_succ, List.getElem?_append]
        rw [if_neg (show ¬((registry (strippedHeaders t)).length + j < aCells.length) by omega)]
        have hsub : (registry (strippedHeaders t)).length + j - aCells.length = j := by omega
        rw [hsub, hgetL, hvL]

/-- Witness for C6: module `1` has two assessment columns (one value
present, one missing — the mean ignores the missing entry) and one lab
column whose only value is unparseable, so the lab cell is empty. -/
theorem cell_is_formatted_mean_witness :
    pipeline ⟨["Student", "Assessment - 1.1 A", "Assessment - 1.2 B", "Lab - 1.3 L"],
        [[some "s", some "80", none, some "abc"]]⟩ =
      some ⟨["Student", "Module 1 Assignments", "Module 1 Labs"],
            [[some "s", some "80.00%", some ""]]⟩ ∧
    ([some "s", some "80.00%", (some "" : Option String)][1 + 0]? =
      some (some (renderMean (presentVals
        (strippedHeaders ⟨["Student", "Assessment - 1.1 A", "Assessment - 1.2 B", "Lab - 1.3 L"],
          [[some "s", some "80", none, some "abc"]]⟩)
        [some "s", some "80", none, some "abc"] "1" Kind.assessment)))) ∧
    ([some "s", some "80.00%", (some "" : Option String)][1 + 1 + 0]? =
      some (some (renderMean (presentVals
        (strippedHeaders ⟨["Student", "Assessment - 1.1 A", "Assessment - 1.2 B", "Lab - 1.3 L"],
          [[some "s", some "80", none, some "abc"]]⟩)
        [some "s", some "80", none, some "abc"] "1" Kind.lab)))) :=
  ⟨by decide,
   ((cell_is_formatted_mean
      ⟨["Student", "Assessment - 1.1 A", "Assessment - 1.2 B", "Lab - 1.3 L"],
        [[some "s", some "80", none, some "abc"]]⟩
      ⟨["Student", "Module 1 Assignments", "Module 1 Labs"],
        [[some "s", some "80.00%", some ""]]⟩ (by decide)).2 0 0
      [some "s", some "80", none, some "abc"] [some "s", some "80.00%", some ""] "1"
      (by decide) (by decide) (by decide)).1,
   ((cell_is_formatted_mean
      ⟨["Student", "Assessment - 1.1 A", "Assessment - 1.2 B", "Lab - 1.3 L"],
        [[some "s", some "80", none, some "abc"]]⟩
      ⟨["Student", "Module 1 Assignments", "Module 1 Labs"],
        [[some "s", some "80.00%", some ""]]⟩ (by decide)).2 0 0
      [some "s", some "80", none, some "abc"] [some "s", some "80.00%", some ""] "1"
      (by decide) (by decide) (by decide)).2⟩

/-! ## `Frac` computes genuine rational arithmetic -/

theorem Frac.toRat_add (a b : Frac) (ha : a.den ≠ 0) (hb : b.den ≠ 0) :
    (a.add b).toRat = a.toRat + b.toRat := by
  unfold Frac.add Frac.toRat
  have ha2 : ((a.den : ℚ)) ≠ 0 := Nat.cast_ne_zero.mpr ha
  have hb2 : ((b.den : ℚ)) ≠ 0 := Nat.cast_ne_zero.mpr hb
  push_cast
  field_simp

theorem Frac.toRat_divNat (a : Frac) (n : Nat) (ha : a.den ≠ 0) (hn : n ≠ 0) :
    (a.divNat n).toRat = a.toRat / (n : ℚ) := by
  unfold Frac.divNat Frac.toRat
  have ha2 : ((a.den : ℚ)) ≠ 0 := Nat.cast_ne_zero.mpr ha
  have hn2 : ((n : ℚ)) ≠ 0 := Nat.cast_ne_zero.mpr hn
  push_cast
  field_simp

theorem Frac.toRat_neg (a : Frac) : a.neg.toRat = -a.toRat := by
  unfold Frac.neg Frac.toRat
  push_cast
  ring

theorem toRat_fracSum (vs : List Frac) (h : ∀ v ∈ vs, v.den ≠ 0) :
    (fracSum vs).toRat = (vs.map Frac.toRat).sum ∧ (fracSum vs).den ≠ 0 := by
  induction vs with
  | nil =>
    constructor
    · simp [fracSum, Frac.toRat]
    · simp [fracSum]
  | cons v t ih =>
    have ih2 := ih (fun x hx => h x (by simp [hx]))
    have hv : v.den ≠ 0 := h v (by simp)
    have hstep : fracSum (v :: t) = v.add (fracSum t) := rfl
    constructor
    · rw [hstep, Frac.toRat_add v _ hv ih2.2, ih2.1]
      simp
    · rw [hstep]
      show v.den * (fracSum t).den ≠ 0
      exact Nat.mul_ne_zero hv ih2.2

/-- The mean computed on `Frac` representations is the genuine arithmetic
mean of the denoted rationals: the sum of the values divided by their
count. -/
theorem toRat_fracMean (vs : List Frac) (h : ∀ v ∈ vs, v.den ≠ 0) (hne : vs ≠ []) :
    (fracMean vs).toRat = (vs.map Frac.toRat).sum / (vs.length : ℚ) := by
  unfold fracMean
  have hlen : vs.length ≠ 0 := fun hl => hne (List.length_eq_zero.mp hl)
  rw [Frac.toRat_divNat _ _ (toRat_fracSum vs h).2 hlen, (toRat_fracSum vs h).1]

theorem pvSum_fin (qs : List Frac) : pvSum (qs.map PVal.fin) = PVal.fin (fracSum qs) := by
  induction qs with
  | nil => rfl
  | cons q t ih =>
    show pvAdd (PVal.fin q) (pvSum (t.map PVal.fin)) = PVal.fin (q.add (fracSum t))
    rw [ih]
    rfl

/-- On all-finite value lists, the pipeline's mean is exactly the
`Frac`-level arithmetic mean, which `toRat_fracMean` identifies with the
genuine rational mean. -/
theorem pvMean_fin (qs : List Frac) : pvMean (qs.map PVal.fin) = PVal.fin (fracMean qs) := by
  unfold pvMean
  rw [pvSum_fin]
  simp [fracMean]

end App
